import Mathlib

/-!
Shallow embedding of `p2ch12/train_seg.py` (segmentation training harness).

Real numbers are modelled by `ℚ`.  Values flowing through the numpy-based
metrics reducer are modelled by `NpVal`, a rational extended with the IEEE
special values `nan` / `inf` / `-inf`, so that numpy behaviours such as
`0.0/0.0 = nan`, the mean of an empty slice being `nan`, and `np.nan_to_num`
are represented faithfully.  Tensors of shape `[N, ...]` are modelled as
`List (List ℚ)`: a list of `N` samples, each flattened (the code always
flattens via `.view(t.size(0), -1)` before reducing, so only the per-sample
flattened contents matter).
-/

namespace TrainSeg

/-- A numpy floating-point scalar: either a finite value (modelled as a
rational) or one of the non-finite values `nan`, `inf`, `-inf`. -/
inductive NpVal where
  | num : ℚ → NpVal
  | nan : NpVal
  | inf : NpVal
  | ninf : NpVal
  deriving DecidableEq

namespace NpVal

/-- `np.isfinite`. -/
def isFinite : NpVal → Bool
  | num _ => true
  | _ => false

/-- IEEE negation. -/
def neg : NpVal → NpVal
  | num a => num (-a)
  | nan => nan
  | inf => ninf
  | ninf => inf

/-- IEEE addition (as implemented by numpy on float64). -/
def add : NpVal → NpVal → NpVal
  | nan, _ => nan
  | _, nan => nan
  | inf, ninf => nan
  | ninf, inf => nan
  | inf, _ => inf
  | _, inf => inf
  | ninf, _ => ninf
  | _, ninf => ninf
  | num a, num b => num (a + b)

/-- IEEE subtraction. -/
def sub (x y : NpVal) : NpVal := add x (neg y)

/-- IEEE multiplication; `inf * 0 = nan`, signs propagate. -/
def mul : NpVal → NpVal → NpVal
  | nan, _ => nan
  | _, nan => nan
  | num a, num b => num (a * b)
  | inf, inf => inf
  | inf, ninf => ninf
  | ninf, inf => ninf
  | ninf, ninf => inf
  | inf, num b => if b = 0 then nan else if 0 < b then inf else ninf
  | num a, inf => if a = 0 then nan else if 0 < a then inf else ninf
  | ninf, num b => if b = 0 then nan else if 0 < b then ninf else inf
  | num a, ninf => if a = 0 then nan else if 0 < a then ninf else inf

/-- IEEE division as numpy performs it on float64: `0/0 = nan`,
`x/0 = ±inf` for finite nonzero `x`, `x/±inf = 0` for finite `x`. -/
def div : NpVal → NpVal → NpVal
  | nan, _ => nan
  | _, nan => nan
  | num a, num b =>
      if b = 0 then (if a = 0 then nan else if 0 < a then inf else ninf)
      else num (a / b)
  | num _, inf => num 0
  | num _, ninf => num 0
  | inf, num b => if 0 ≤ b then inf else ninf
  | ninf, num b => if 0 ≤ b then ninf else inf
  | inf, inf => nan
  | inf, ninf => nan
  | ninf, inf => nan
  | ninf, ninf => nan

/-- Python truthiness of a float: `0.0` is falsy, every other value
(including `nan` and the infinities) is truthy. -/
def truthy : NpVal → Bool
  | num a => a ≠ 0
  | _ => true

/-- Python `x or y` on scalars: `y` when `x` is falsy, else `x`. -/
def pyOr (x y : NpVal) : NpVal := if x.truthy then x else y

/-- Largest finite float64, used by `np.nan_to_num` for infinities. -/
def FLOAT64_MAX : ℚ := 2 ^ 1024 - 2 ^ 971

/-- `np.nan_to_num`: `nan ↦ 0`, `±inf ↦ ±FLOAT64_MAX`. -/
def nanToNum : NpVal → NpVal
  | num a => num a
  | nan => num 0
  | inf => num FLOAT64_MAX
  | ninf => num (-FLOAT64_MAX)

@[simp] theorem add_num (a b : ℚ) : add (num a) (num b) = num (a + b) := rfl
@[simp] theorem mul_num (a b : ℚ) : mul (num a) (num b) = num (a * b) := rfl
@[simp] theorem neg_num (a : ℚ) : neg (num a) = num (-a) := rfl
@[simp] theorem sub_num (a b : ℚ) : sub (num a) (num b) = num (a - b) := by
  simp [sub, add, neg, sub_eq_add_neg]
@[simp] theorem isFinite_num (a : ℚ) : isFinite (num a) = true := rfl
@[simp] theorem isFinite_nan : isFinite nan = false := rfl
@[simp] theorem isFinite_inf : isFinite inf = false := rfl
@[simp] theorem isFinite_ninf : isFinite ninf = false := rfl
@[simp] theorem nanToNum_num (a : ℚ) : nanToNum (num a) = num a := rfl
@[simp] theorem nanToNum_nan : nanToNum nan = num 0 := rfl
@[simp] theorem mul_nan_left (x : NpVal) : mul nan x = nan := by
  cases x <;> rfl
@[simp] theorem add_nan_left (x : NpVal) : add nan x = nan := by
  cases x <;> rfl

theorem div_num_of_ne (a b : ℚ) (hb : b ≠ 0) :
    div (num a) (num b) = num (a / b) := by
  simp [div, hb]

theorem div_num_zero_zero : div (num 0) (num 0) = nan := by
  simp [div]

theorem pyOr_of_zero (y : NpVal) : pyOr (num 0) y = y := by
  simp [pyOr, truthy]

theorem pyOr_of_ne (a : ℚ) (h : a ≠ 0) (y : NpVal) :
    pyOr (num a) y = num a := by
  simp [pyOr, truthy, h]

end NpVal

export NpVal (num nan inf ninf)

/-! ## Dice loss (`LunaTrainingApp.diceLoss`) -/

/-- `t.view(t.size(0), -1).sum(dim=1)`: per-sample sum over all non-batch
dimensions. -/
def sum_dim1 (t : List (List ℚ)) : List ℚ := t.map List.sum

/-- Elementwise (Hadamard) product of two tensors of identical shape. -/
def hadamard (a b : List (List ℚ)) : List (List ℚ) :=
  List.zipWith (fun ra rb => List.zipWith (fun x y => x * y) ra rb) a b

/-- `LunaTrainingApp.diceLoss(label, prediction, epsilon=1024)`:
per-sample soft Dice loss
`1 - (2*overlap + ε) / (predSum + labelSum + ε)`. -/
def diceLoss (label_g prediction_g : List (List ℚ)) (epsilon : ℚ := 1024) :
    List ℚ :=
  let diceLabel_g := sum_dim1 label_g
  let dicePrediction_g := sum_dim1 prediction_g
  let diceCorrect_g := sum_dim1 (hadamard prediction_g label_g)
  List.zipWith
    (fun correct pl => 1 - (2 * correct + epsilon) / (pl.1 + pl.2 + epsilon))
    diceCorrect_g (dicePrediction_g.zip diceLabel_g)

@[simp] theorem diceLoss_nil_left (p : List (List ℚ)) (ε : ℚ) :
    diceLoss [] p ε = [] := by
  simp [diceLoss, sum_dim1, hadamard]

@[simp] theorem diceLoss_nil_right (l : List (List ℚ)) (ε : ℚ) :
    diceLoss l [] ε = [] := by
  cases l <;> rfl

theorem diceLoss_cons (a b : List ℚ) (l p : List (List ℚ)) (ε : ℚ) :
    diceLoss (a :: l) (b :: p) ε =
      (1 - (2 * (List.zipWith (fun x y => x * y) b a).sum + ε) /
        (b.sum + a.sum + ε)) :: diceLoss l p ε := rfl

theorem diceLoss_length (l p : List (List ℚ)) (ε : ℚ) :
    (diceLoss l p ε).length = min l.length p.length := by
  simp [diceLoss, sum_dim1, hadamard]
  omega

/-! ## Metrics indices (module-level constants of `train_seg.py`) -/

def METRICS_LABEL_NDX : ℕ := 0
def METRICS_LOSS_NDX : ℕ := 1
def METRICS_MAL_LOSS_NDX : ℕ := 2

def METRICS_MTP_NDX : ℕ := 4
def METRICS_MFN_NDX : ℕ := 5
def METRICS_MFP_NDX : ℕ := 6
def METRICS_ATP_NDX : ℕ := 7
def METRICS_AFN_NDX : ℕ := 8
def METRICS_AFP_NDX : ℕ := 9

def METRICS_SIZE : ℕ := 10

/-! ## The per-epoch metrics accumulator (`metrics_devtensor`)

The accumulator is a 2D tensor `[METRICS_SIZE, total_samples]`.  We model it
as a value function together with a write-count function, so that claims
about which cells an epoch writes (and how often) are expressible.  A slice
assignment `metrics[row, start:start+k] = xs` sets the values and bumps the
write count of exactly the cells of that slice. -/

structure MBuf where
  val : ℕ → ℕ → NpVal
  wcount : ℕ → ℕ → ℕ

/-- `torch.zeros(METRICS_SIZE, n)`: all cells zero, nothing written yet. -/
def initMBuf : MBuf where
  val := fun _ _ => num 0
  wcount := fun _ _ => 0

/-- `metrics[row, start : start + xs.length] = xs`. -/
def writeRow (m : MBuf) (row start : ℕ) (xs : List ℚ) : MBuf where
  val := fun r c =>
    if r = row ∧ start ≤ c ∧ c < start + xs.length
    then num (xs.getD (c - start) 0) else m.val r c
  wcount := fun r c =>
    m.wcount r c +
      (if r = row ∧ start ≤ c ∧ c < start + xs.length then 1 else 0)

/-- One batch as delivered by the data loader, together with the model's
prediction for it (the model is an external collaborator, so its output is
an input of the embedding).  All tensors hold `N` samples. -/
structure SegBatch where
  label_list : List ℚ
  label : List (List ℚ)
  ben : List (List ℚ)
  mal : List (List ℚ)
  prediction : List (List ℚ)

/-- `lambda a, b: (a * b).view(a.size(0), -1).sum(dim=1)`. -/
def intersectionSum (a b : List (List ℚ)) : List ℚ :=
  List.zipWith (fun ra rb => (List.zipWith (fun x y => x * y) ra rb).sum) a b

/-- Broadcast `1 - t` over a tensor. -/
def oneMinus (t : List (List ℚ)) : List (List ℚ) :=
  t.map (List.map (fun x => 1 - x))

/-- `(prediction > 0.5).to(torch.float32)`. -/
def thresholdHalf (t : List (List ℚ)) : List (List ℚ) :=
  t.map (List.map (fun x => if 1 / 2 < x then (1 : ℚ) else 0))

/-- `torch.mean` of a per-sample loss vector. -/
def listMean (l : List ℚ) : ℚ := l.sum / l.length

/-- `LunaTrainingApp.computeBatchLoss`: writes label, overall dice loss,
all-class TP/FN/FP, malignant TP/FN and malignant dice loss into the
accumulator at columns `[batch_ndx*batch_size, batch_ndx*batch_size+N)`;
the malignant-FP store is commented out in the source.  Returns the updated
accumulator and the scalar mean dice loss used for backprop. -/
def computeBatchLoss (batch_ndx batch_size : ℕ) (b : SegBatch) (m : MBuf) :
    MBuf × ℚ :=
  let start_ndx := batch_ndx * batch_size
  let prediction_g := b.prediction
  let diceLoss_g := diceLoss b.label prediction_g 1024
  let predictionBool_g := thresholdHalf prediction_g
  let m := writeRow m METRICS_LABEL_NDX start_ndx b.label_list
  let m := writeRow m METRICS_LOSS_NDX start_ndx diceLoss_g
  let tp := intersectionSum b.label predictionBool_g
  let fn := intersectionSum b.label (oneMinus predictionBool_g)
  let fp := intersectionSum (oneMinus b.label) predictionBool_g
  let m := writeRow m METRICS_ATP_NDX start_ndx tp
  let m := writeRow m METRICS_AFN_NDX start_ndx fn
  let m := writeRow m METRICS_AFP_NDX start_ndx fp
  let malPred_g := hadamard predictionBool_g (oneMinus b.ben)
  let tp2 := intersectionSum b.mal malPred_g
  let fn2 := intersectionSum b.mal (oneMinus malPred_g)
  let ls := diceLoss b.mal malPred_g 1024
  let m := writeRow m METRICS_MTP_NDX start_ndx tp2
  let m := writeRow m METRICS_MFN_NDX start_ndx fn2
  let m := writeRow m METRICS_MAL_LOSS_NDX start_ndx ls
  (m, listMean diceLoss_g)

/-- The batch loop of `doTraining` / `doTesting`: `batch_ndx` enumerates
batches from 0 and each batch is handed to `computeBatchLoss`. -/
def doEpochAux (batch_size : ℕ) : ℕ → MBuf → List SegBatch → MBuf
  | _, m, [] => m
  | batch_ndx, m, b :: rest =>
      doEpochAux batch_size (batch_ndx + 1)
        (computeBatchLoss batch_ndx batch_size b m).1 rest

/-- One epoch's accumulator, starting from `torch.zeros`. -/
def doEpoch (batch_size : ℕ) (batches : List SegBatch) : MBuf :=
  doEpochAux batch_size 0 initMBuf batches

/-! ## Metrics reducer (`LunaTrainingApp.logMetrics`) -/

/-- `metrics_ary.sum(axis=1)` at one row: sum of the row over all `n`
sample columns, in numpy arithmetic. -/
def rowSum (n : ℕ) (metrics_ary : ℕ → ℕ → NpVal) (r : ℕ) : NpVal :=
  ((List.range n).map (fun j => metrics_ary r j)).foldr NpVal.add (num 0)

/-- One row of the buffer as the list of its `n` column values. -/
def rowList (n : ℕ) (metrics_ary : ℕ → ℕ → NpVal) (r : ℕ) : List NpVal :=
  (List.range n).map (fun j => metrics_ary r j)

/-- `ndarray.mean()`: sum divided by length; numpy's mean of an empty
slice is `0/0 = nan`. -/
def npMean (l : List NpVal) : NpVal :=
  NpVal.div (l.foldr NpVal.add (num 0)) (num l.length)

/-- The fixed record of derived metrics (`metrics_dict` of the source,
with its string keys turned into fields: `loss/all`, `loss/mal`,
`correct/mal`, `correct/all`, `pr/precision`, `pr/recall`,
`pr/f1_score`). -/
structure MetricsDict where
  lossAll : NpVal
  lossMal : NpVal
  correctMal : NpVal
  correctAll : NpVal
  precision : NpVal
  pr_recall : NpVal
  f1 : NpVal
  deriving DecidableEq

/-- `malLabel_mask` of `logMetrics`: the sample columns whose label is
1 or 3 (the actually-malignant samples). -/
def malLabel_mask (n : ℕ) (metrics_ary : ℕ → ℕ → NpVal) : List ℕ :=
  (List.range n).filter (fun j =>
    decide (metrics_ary METRICS_LABEL_NDX j = num 1 ∨
            metrics_ary METRICS_LABEL_NDX j = num 3))

/-- `metrics_dict['loss/all']`: mean of the overall dice-loss row over
all sample columns. -/
def lossAllOf (n : ℕ) (metrics_ary : ℕ → ℕ → NpVal) : NpVal :=
  npMean (rowList n metrics_ary METRICS_LOSS_NDX)

/-- `metrics_dict['loss/mal']`: `np.nan_to_num` of the mean of the
malignant dice-loss row restricted to the malignant-masked columns. -/
def lossMalOf (n : ℕ) (metrics_ary : ℕ → ℕ → NpVal) : NpVal :=
  NpVal.nanToNum
    (npMean ((malLabel_mask n metrics_ary).map
      (fun j => metrics_ary METRICS_MAL_LOSS_NDX j)))

/-- `metrics_dict['correct/mal']`: `MTP/(MTP+MFN)*100`, with no guard on
the denominator. -/
def correctMalOf (n : ℕ) (metrics_ary : ℕ → ℕ → NpVal) : NpVal :=
  NpVal.mul
    (NpVal.div (rowSum n metrics_ary METRICS_MTP_NDX)
      (NpVal.add (rowSum n metrics_ary METRICS_MTP_NDX)
        (rowSum n metrics_ary METRICS_MFN_NDX)))
    (num 100)

/-- `metrics_dict['correct/all']`: `ATP/(ATP+AFN)*100`, with no guard on
the denominator. -/
def correctAllOf (n : ℕ) (metrics_ary : ℕ → ℕ → NpVal) : NpVal :=
  NpVal.mul
    (NpVal.div (rowSum n metrics_ary METRICS_ATP_NDX)
      (NpVal.add (rowSum n metrics_ary METRICS_ATP_NDX)
        (rowSum n metrics_ary METRICS_AFN_NDX)))
    (num 100)

/-- `metrics_dict['pr/precision']`: `ATP/((ATP+AFP) or 1)`, the Python
`or` flooring a zero denominator to 1. -/
def precisionOf (n : ℕ) (metrics_ary : ℕ → ℕ → NpVal) : NpVal :=
  NpVal.div (rowSum n metrics_ary METRICS_ATP_NDX)
    (NpVal.pyOr
      (NpVal.add (rowSum n metrics_ary METRICS_ATP_NDX)
        (rowSum n metrics_ary METRICS_AFP_NDX))
      (num 1))

/-- `metrics_dict['pr/recall']`: `ATP/((ATP+AFN) or 1)`, same floor. -/
def recallOf (n : ℕ) (metrics_ary : ℕ → ℕ → NpVal) : NpVal :=
  NpVal.div (rowSum n metrics_ary METRICS_ATP_NDX)
    (NpVal.pyOr
      (NpVal.add (rowSum n metrics_ary METRICS_ATP_NDX)
        (rowSum n metrics_ary METRICS_AFN_NDX))
      (num 1))

/-- `metrics_dict['pr/f1_score']`:
`2*(precision*recall)/((precision+recall) or 1)`, same floor. -/
def f1Of (n : ℕ) (metrics_ary : ℕ → ℕ → NpVal) : NpVal :=
  NpVal.div
    (NpVal.mul (num 2)
      (NpVal.mul (precisionOf n metrics_ary) (recallOf n metrics_ary)))
    (NpVal.pyOr
      (NpVal.add (precisionOf n metrics_ary) (recallOf n metrics_ary))
      (num 1))

/-- The composite score of `logMetrics` (lines 456-462 of the source):
`1 + f1 - recall*0.01 - lossMal*0.001 - lossAll*0.0001`. -/
def scoreOf (n : ℕ) (metrics_ary : ℕ → ℕ → NpVal) : NpVal :=
  NpVal.sub
    (NpVal.sub
      (NpVal.sub (NpVal.add (num 1) (f1Of n metrics_ary))
        (NpVal.mul (recallOf n metrics_ary) (num (1 / 100))))
      (NpVal.mul (lossMalOf n metrics_ary) (num (1 / 1000))))
    (NpVal.mul (lossAllOf n metrics_ary) (num (1 / 10000)))

/-- `LunaTrainingApp.logMetrics`: asserts every buffer entry is finite
(`assert np.isfinite(metrics_ary).all()` — `none` models the
`AssertionError` aborting the run), then derives the metrics record and
returns the composite score.  Only the malignant-loss mean is restricted
to the malignant-masked columns, and only it passes through
`np.nan_to_num`; `correct/mal` and `correct/all` divide without any
zero-denominator floor, while precision, recall and f1 floor a zero
denominator to 1 via Python `or`. -/
def logMetrics (n : ℕ) (metrics_ary : ℕ → ℕ → NpVal) :
    Option (MetricsDict × NpVal) :=
  if (List.range METRICS_SIZE).all
      (fun r => (List.range n).all (fun j => (metrics_ary r j).isFinite))
  then
    some (⟨lossAllOf n metrics_ary, lossMalOf n metrics_ary,
      correctMalOf n metrics_ary, correctAllOf n metrics_ary,
      precisionOf n metrics_ary, recallOf n metrics_ary,
      f1Of n metrics_ary⟩, scoreOf n metrics_ary)
  else none

/-- The composite score of `logMetrics` (lines 456-462 of the source) as a
function of the four derived quantities it reads, over the finite values. -/
def scoreFormula (f1 pr_recall lossMal lossAll : ℚ) : ℚ :=
  1 + f1 - pr_recall * (1 / 100) - lossMal * (1 / 1000) - lossAll * (1 / 10000)

/-! ## Best-checkpoint policy (`LunaTrainingApp.main` / `saveModel`) -/

/-- The best-file side effect of `saveModel(type_str, epoch_ndx, isBest)`:
when `isBest`, the "best"-suffixed file is overwritten with the state of
`epoch_ndx`; otherwise it is untouched.  The file content is modelled by
the epoch index whose state it holds (`none` = file never written). -/
def saveModel (epoch_ndx : ℕ) (isBest : Bool) (bestFile : Option ℕ) :
    Option ℕ :=
  if isBest then some epoch_ndx else bestFile

/-- The per-run state threaded through the epoch loop of `main`. -/
structure RunState where
  best_score : ℚ
  bestFile : Option ℕ
  deriving DecidableEq

/-- One iteration of the epoch loop of `main`:
`best_score = max(score, best_score)` followed by
`saveModel('seg', epoch_ndx, score == best_score)`. -/
def mainStep (st : RunState) (epoch_ndx : ℕ) (score : ℚ) : RunState :=
  let best_score := max score st.best_score
  { best_score := best_score,
    bestFile :=
      saveModel epoch_ndx (decide (score = best_score)) st.bestFile }

/-- The epoch loop of `main` over the evaluation scores of the run,
`epoch_ndx` counting from 1. -/
def mainLoopAux : ℕ → RunState → List ℚ → RunState
  | _, st, [] => st
  | epoch_ndx, st, s :: rest =>
      mainLoopAux (epoch_ndx + 1) (mainStep st epoch_ndx s) rest

/-- `main`: `best_score` starts at `0.0`, the best file does not exist. -/
def mainLoop (scores : List ℚ) : RunState :=
  mainLoopAux 1 ⟨0, none⟩ scores

/-! ## Helper lemmas about per-sample dice arithmetic -/

theorem zipMul_sum_nonneg (a b : List ℚ)
    (ha : ∀ x ∈ a, 0 ≤ x) (hb : ∀ y ∈ b, 0 ≤ y) :
    0 ≤ (List.zipWith (fun x y => x * y) a b).sum := by
  induction a generalizing b with
  | nil => simp
  | cons x xs ih =>
    cases b with
    | nil => simp
    | cons y ys =>
      simp only [List.zipWith_cons_cons, List.sum_cons]
      have hx : 0 ≤ x := ha x (by simp)
      have hy : 0 ≤ y := hb y (by simp)
      have := ih ys (fun z hz => ha z (by simp [hz]))
        (fun z hz => hb z (by simp [hz]))
      nlinarith

theorem zipMul_sum_le_add (a b : List ℚ) (hlen : a.length = b.length)
    (ha : ∀ x ∈ a, x = 0 ∨ x = 1) (hb : ∀ y ∈ b, 0 ≤ y ∧ y ≤ 1) :
    2 * (List.zipWith (fun x y => x * y) b a).sum ≤ b.sum + a.sum := by
  induction a generalizing b with
  | nil => cases b <;> simp_all
  | cons x xs ih =>
    cases b with
    | nil => simp at hlen
    | cons y ys =>
      simp only [List.zipWith_cons_cons, List.sum_cons]
      have hx : x = 0 ∨ x = 1 := ha x (by simp)
      have hy : 0 ≤ y ∧ y ≤ 1 := hb y (by simp)
      have hrec := ih ys (by simpa using hlen)
        (fun z hz => ha z (by simp [hz])) (fun z hz => hb z (by simp [hz]))
      rcases hx with h | h <;> subst h <;> nlinarith [hy.1, hy.2]

theorem zipMul_self_sum (a : List ℚ) (ha : ∀ x ∈ a, x = 0 ∨ x = 1) :
    (List.zipWith (fun x y => x * y) a a).sum = a.sum := by
  induction a with
  | nil => simp
  | cons x xs ih =>
    simp only [List.zipWith_cons_cons, List.sum_cons]
    have hx : x = 0 ∨ x = 1 := ha x (by simp)
    have := ih (fun z hz => ha z (by simp [hz]))
    rcases hx with h | h <;> subst h <;> simp_all

theorem list_sum_nonneg_of_mem (a : List ℚ) (ha : ∀ x ∈ a, 0 ≤ x) :
    0 ≤ a.sum :=
  List.sum_nonneg ha

theorem binary_sum_nonneg (a : List ℚ) (ha : ∀ x ∈ a, x = 0 ∨ x = 1) :
    0 ≤ a.sum := by
  refine List.sum_nonneg (fun x hx => ?_)
  rcases ha x hx with h | h <;> simp [h]

/-- C2 (amended) per-sample core: with a binary label row `a`, a
prediction row `b` valued in `[0,1]` of the same length and `ε > 0`, the
per-sample dice loss lies in `[0,1)`. -/
theorem dice_sample_range (a b : List ℚ) (ε : ℚ) (hε : 0 < ε)
    (hlen : a.length = b.length)
    (ha : ∀ x ∈ a, x = 0 ∨ x = 1) (hb : ∀ y ∈ b, 0 ≤ y ∧ y ≤ 1) :
    0 ≤ 1 - (2 * (List.zipWith (fun x y => x * y) b a).sum + ε) /
        (b.sum + a.sum + ε) ∧
      1 - (2 * (List.zipWith (fun x y => x * y) b a).sum + ε) /
        (b.sum + a.sum + ε) < 1 := by
  have hbs : 0 ≤ b.sum := List.sum_nonneg (fun y hy => (hb y hy).1)
  have has : 0 ≤ a.sum := binary_sum_nonneg a ha
  have hD : 0 < b.sum + a.sum + ε := by linarith
  have hc : 0 ≤ (List.zipWith (fun x y => x * y) b a).sum :=
    zipMul_sum_nonneg b a (fun y hy => (hb y hy).1)
      (fun x hx => by rcases ha x hx with h | h <;> simp [h])
  have hN : 0 < 2 * (List.zipWith (fun x y => x * y) b a).sum + ε := by
    linarith
  constructor
  · have hle : 2 * (List.zipWith (fun x y => x * y) b a).sum + ε ≤
        b.sum + a.sum + ε := by
      have := zipMul_sum_le_add a b hlen ha hb
      linarith
    have := (div_le_one hD).mpr hle
    linarith
  · have := div_pos hN hD
    linarith

/-! ## Claim C6: the per-sample dice-loss formula -/

/-- C6: for label and prediction tensors of identical batch length,
`diceLoss` returns per sample `1 - (2*overlap + ε) / (predSum + labelSum
+ ε)` where `labelSum`, `predSum`, `overlap` sum the label, the
prediction and their product over the non-batch dimensions of that
sample. -/
theorem claim_C6_diceLoss_formula (label_g prediction_g : List (List ℚ))
    (ε : ℚ) (i : ℕ) (hlen : label_g.length = prediction_g.length)
    (hi : i < label_g.length) :
    (diceLoss label_g prediction_g ε).getD i 0 =
      1 - (2 * (List.zipWith (fun x y => x * y) (label_g.getD i [])
          (prediction_g.getD i [])).sum + ε) /
        ((prediction_g.getD i []).sum + (label_g.getD i []).sum + ε) := by
  induction label_g generalizing prediction_g i with
  | nil => simp at hi
  | cons a l ih =>
    cases prediction_g with
    | nil => simp at hlen
    | cons b p =>
      cases i with
      | zero =>
        rw [diceLoss_cons]
        simp only [List.getD_cons_zero]
        rw [List.zipWith_comm_of_comm (fun x y => x * y)
          (fun x y => mul_comm x y) b a]
      | succ n =>
        rw [diceLoss_cons]
        simpa using ih p n (by simpa using hlen) (by simpa using hi)

/-- Witness for C6 at a concrete input. -/
theorem claim_C6_witness :
    (diceLoss [[1, 0]] [[1/2, 1/2]] 1).getD 0 0 =
      1 - (2 * (List.zipWith (fun x y => x * y) ([[(1:ℚ), 0]].getD 0 [])
          ([[(1:ℚ)/2, 1/2]].getD 0 [])).sum + 1) /
        (([[(1:ℚ)/2, 1/2]].getD 0 []).sum + ([[(1:ℚ), 0]].getD 0 []).sum + 1) :=
  claim_C6_diceLoss_formula [[1, 0]] [[1/2, 1/2]] 1 0 (by simp) (by simp)

/-! ## Claim C2 (corrected): range of the dice loss -/

/-- C2 as stated is false: with `label = prediction = [[1]]` (binary,
in `[0,1]`) and `ε = 1 > 0`, the per-sample dice loss is `0`, which is
not in the half-open interval `(0,1]`. -/
theorem claim_C2_cex :
    ¬ (∀ v ∈ diceLoss [[1]] [[1]] 1, 0 < v ∧ v ≤ 1) := by
  intro h
  have hmem : (0 : ℚ) ∈ diceLoss [[1]] [[1]] 1 := by
    rw [diceLoss_cons]
    norm_num
  exact absurd (h 0 hmem).1 (by norm_num)

/-- C2 (amended): for binary labels, predictions in `[0,1]` of identical
shape and any `ε > 0`, every per-sample dice loss lies in the interval
`[0,1)` — closed at 0, open at 1; and when the prediction equals the
label exactly the loss is exactly `0` for every `ε > 0` (so in
particular it tends to 0 as `ε → 0`). -/
theorem claim_C2_amended :
    (∀ (label_g prediction_g : List (List ℚ)) (ε : ℚ), 0 < ε →
      label_g.length = prediction_g.length →
      (∀ rp ∈ label_g.zip prediction_g, rp.1.length = rp.2.length) →
      (∀ row ∈ label_g, ∀ x ∈ row, x = 0 ∨ x = 1) →
      (∀ row ∈ prediction_g, ∀ y ∈ row, 0 ≤ y ∧ y ≤ 1) →
      ∀ v ∈ diceLoss label_g prediction_g ε, 0 ≤ v ∧ v < 1) ∧
    (∀ (label_g : List (List ℚ)) (ε : ℚ), 0 < ε →
      (∀ row ∈ label_g, ∀ x ∈ row, x = 0 ∨ x = 1) →
      ∀ v ∈ diceLoss label_g label_g ε, v = 0) := by
  constructor
  · intro label_g prediction_g ε hε hlen hshape hbin hrange v hv
    induction label_g generalizing prediction_g with
    | nil => simp at hv
    | cons a l ih =>
      cases prediction_g with
      | nil => simp at hv
      | cons b p =>
        rw [diceLoss_cons] at hv
        rcases List.mem_cons.mp hv with h | h
        · subst h
          exact dice_sample_range a b ε hε
            (hshape (a, b) (by simp))
            (hbin a (by simp)) (hrange b (by simp))
        · exact ih p (by simpa using hlen)
            (fun rp hrp => hshape rp (by simp [List.zip_cons_cons, hrp]))
            (fun row hr => hbin row (by simp [hr]))
            (fun row hr => hrange row (by simp [hr])) h
  · intro label_g ε hε hbin v hv
    induction label_g with
    | nil => simp at hv
    | cons a l ih =>
      rw [diceLoss_cons] at hv
      rcases List.mem_cons.mp hv with h | h
      · subst h
        have ha := hbin a (by simp)
        have hsum : (List.zipWith (fun x y => x * y) a a).sum = a.sum :=
          zipMul_self_sum a ha
        have hD : a.sum + a.sum + ε ≠ 0 := by
          have := binary_sum_nonneg a ha
          positivity
        rw [hsum]
        field_simp
        ring
      · exact ih (fun row hr => hbin row (by simp [hr])) h

/-- Witness for C2 (amended): the bounds at a non-trivial input, and the
exact-match case, both via the theorem. -/
theorem claim_C2_amended_witness :
    (0 ≤ (1/5 : ℚ) ∧ (1/5 : ℚ) < 1) ∧ (0 : ℚ) = 0 := by
  constructor
  · exact claim_C2_amended.1 [[1]] [[1/2]] 1 (by norm_num) (by simp)
      (by simp) (by norm_num) (by norm_num) (1/5)
      (by rw [diceLoss_cons]; norm_num)
  · exact claim_C2_amended.2 [[0, 1]] 1 (by norm_num) (by norm_num) 0
      (by rw [diceLoss_cons]; norm_num)

/-! ## Claim C7: monotonicity of the composite score -/

/-- C7: the composite score is strictly increasing in f1 with the other
terms fixed, and strictly decreasing in each of recall, mean malignant
loss and mean overall loss with the others fixed. -/
theorem claim_C7_score_monotone (f r m a f' r' m' a' : ℚ) :
    (f < f' → scoreFormula f r m a < scoreFormula f' r m a) ∧
    (r < r' → scoreFormula f r' m a < scoreFormula f r m a) ∧
    (m < m' → scoreFormula f r m' a < scoreFormula f r m a) ∧
    (a < a' → scoreFormula f r m a' < scoreFormula f r m a) := by
  refine ⟨fun h => ?_, fun h => ?_, fun h => ?_, fun h => ?_⟩ <;>
    simp only [scoreFormula] <;> nlinarith

/-- Witness for C7 at concrete values. -/
theorem claim_C7_witness :
    scoreFormula 0 0 0 0 < scoreFormula 1 0 0 0 ∧
    scoreFormula 0 1 0 0 < scoreFormula 0 0 0 0 ∧
    scoreFormula 0 0 1 0 < scoreFormula 0 0 0 0 ∧
    scoreFormula 0 0 0 1 < scoreFormula 0 0 0 0 :=
  ⟨(claim_C7_score_monotone 0 0 0 0 1 0 0 0).1 (by norm_num),
   (claim_C7_score_monotone 0 0 0 0 0 1 0 0).2.1 (by norm_num),
   (claim_C7_score_monotone 0 0 0 0 0 0 1 0).2.2.1 (by norm_num),
   (claim_C7_score_monotone 0 0 0 0 0 0 0 1).2.2.2 (by norm_num)⟩

/-! ## Lemmas about the epoch loop of `main` -/

theorem mainLoopAux_best_score (l : List ℚ) :
    ∀ (e : ℕ) (st : RunState),
      (mainLoopAux e st l).best_score =
        l.foldl (fun b s => max s b) st.best_score := by
  induction l with
  | nil => intro e st; rfl
  | cons s rest ih =>
    intro e st
    simp only [mainLoopAux, List.foldl_cons]
    rw [ih]
    rfl

theorem mainLoopAux_append (l1 l2 : List ℚ) :
    ∀ (e : ℕ) (st : RunState),
      mainLoopAux e st (l1 ++ l2) =
        mainLoopAux (e + l1.length) (mainLoopAux e st l1) l2 := by
  induction l1 with
  | nil => intro e st; simp [mainLoopAux]
  | cons s rest ih =>
    intro e st
    have h1 : mainLoopAux e st ((s :: rest) ++ l2) =
        mainLoopAux (e + 1) (mainStep st e s) (rest ++ l2) := rfl
    rw [h1, ih]
    have h2 : e + (s :: rest).length = e + 1 + rest.length := by
      simp only [List.length_cons]
      omega
    rw [h2]
    rfl

theorem mainLoopAux_bestFile_lt (l : List ℚ) :
    ∀ (e : ℕ) (st : RunState),
      (∀ k, st.bestFile = some k → k < e) →
      ∀ k, (mainLoopAux e st l).bestFile = some k → k < e + l.length := by
  induction l with
  | nil =>
    intro e st h k hk
    have := h k hk
    simp only [List.length_nil]
    omega
  | cons s rest ih =>
    intro e st h k hk
    have hstep : ∀ k, (mainStep st e s).bestFile = some k → k < e + 1 := by
      intro k2 hk2
      simp only [mainStep, saveModel] at hk2
      split at hk2
      · simp only [Option.some.injEq] at hk2
        omega
      · have := h k2 hk2
        omega
    have := ih (e + 1) (mainStep st e s) hstep k hk
    simp only [List.length_cons]
    omega

theorem foldl_max_le_iff (l : List ℚ) :
    ∀ (b c : ℚ),
      l.foldl (fun x s => max s x) b ≤ c ↔ b ≤ c ∧ ∀ x ∈ l, x ≤ c := by
  induction l with
  | nil => simp
  | cons s rest ih =>
    intro b c
    simp only [List.foldl_cons, ih, max_le_iff, List.mem_cons]
    constructor
    · rintro ⟨⟨h1, h2⟩, h3⟩
      exact ⟨h2, fun x hx => by rcases hx with rfl | hx; exact h1; exact h3 x hx⟩
    · rintro ⟨h1, h2⟩
      exact ⟨⟨h2 s (Or.inl rfl), h1⟩, fun x hx => h2 x (Or.inr hx)⟩

/-! ## Claim C5: the best-checkpoint promotion policy -/

/-- C5: after evaluation epoch `k+1` (scores listed in epoch order), the
best-suffixed checkpoint file holds exactly epoch `k+1`'s state if and
only if that epoch's score is at least every earlier score and at least
the initial best of 0; and after consecutive scores `0.8`, `0.75` the
best file holds epoch 1's state. -/
theorem claim_C5_best_checkpoint :
    (∀ (scores : List ℚ) (k : ℕ) (hk : k < scores.length),
      ((mainLoop (scores.take (k + 1))).bestFile = some (k + 1) ↔
        0 ≤ scores.getD k 0 ∧ ∀ x ∈ scores.take k, x ≤ scores.getD k 0)) ∧
    (mainLoop [8/10, 3/4]).bestFile = some 1 := by
  constructor
  · intro scores k hk
    have htake : scores.take (k + 1) = scores.take k ++ [scores.getD k 0] := by
      rw [List.take_succ]
      congr 1
      rw [List.getElem?_eq_getElem hk]
      simp [List.getD_eq_getElem?_getD, List.getElem?_eq_getElem hk]
    have hlen : (scores.take k).length = k := by
      simp [List.length_take]
      omega
    rw [mainLoop, htake, mainLoopAux_append, hlen]
    set st := mainLoopAux 1 ⟨0, none⟩ (scores.take k) with hst
    set s := scores.getD k 0 with hs
    have hbest : st.best_score =
        (scores.take k).foldl (fun b x => max x b) 0 := by
      rw [hst, mainLoopAux_best_score]
    simp only [mainLoopAux, mainStep, saveModel]
    by_cases hc : s = max s st.best_score
    · rw [if_pos (by simpa using hc)]
      have hle : st.best_score ≤ s := by
        rw [hc]
        exact le_max_right _ _
      constructor
      · intro _
        have := (foldl_max_le_iff (scores.take k) 0 s).mp
          (by rw [← hbest]; exact hle)
        exact this
      · intro _
        simp only [Option.some.injEq]
        omega
    · rw [if_neg (by simpa using hc)]
      have hnle : ¬ st.best_score ≤ s := by
        intro hle
        exact hc (max_eq_left hle).symm
      constructor
      · intro hfile
        have hb : ∀ j, (⟨0, none⟩ : RunState).bestFile = some j → j < 1 := by
          intro j hj
          simp at hj
        have := mainLoopAux_bestFile_lt (scores.take k) 1 ⟨0, none⟩ hb
          (k + 1) hfile
        rw [hlen] at this
        omega
      · rintro ⟨h0, hall⟩
        exfalso
        apply hnle
        rw [hbest]
        exact (foldl_max_le_iff (scores.take k) 0 s).mpr ⟨h0, hall⟩
  · norm_num [mainLoop, mainLoopAux, mainStep, saveModel, max_def]

/-- Witness for C5: a single epoch with score `1/2 ≥ 0` writes the best
file for epoch 1. -/
theorem claim_C5_witness :
    (mainLoop ([(1:ℚ)/2].take (0 + 1))).bestFile = some (0 + 1) :=
  (claim_C5_best_checkpoint.1 [(1:ℚ)/2] 0 (by norm_num)).mpr
    ⟨by norm_num [List.getD_cons_zero], by simp⟩

/-! ## Evaluation lemmas for the reducer on simple buffers -/

theorem foldr_add_num_zero (l : List ℕ) :
    ((l.map (fun _ : ℕ => num (0:ℚ))).foldr NpVal.add (num 0)) = num 0 := by
  induction l with
  | nil => rfl
  | cons x xs ih =>
    simp only [List.map_cons, List.foldr_cons, ih]
    simp

theorem rowSum_zeroBuf (n r : ℕ) : rowSum n (fun _ _ => num 0) r = num 0 :=
  foldr_add_num_zero (List.range n)

theorem foldr_add_zeroList (l : List NpVal) (h : ∀ x ∈ l, x = num 0) :
    l.foldr NpVal.add (num 0) = num 0 := by
  induction l with
  | nil => rfl
  | cons x xs ih =>
    have hx : x = num 0 := h x (by simp)
    rw [List.foldr_cons, ih (fun y hy => h y (by simp [hy])), hx]
    simp

theorem npMean_zeroList (l : List NpVal) (hne : l ≠ [])
    (h : ∀ x ∈ l, x = num 0) : npMean l = num 0 := by
  have hfold : l.foldr NpVal.add (num 0) = num 0 := foldr_add_zeroList l h
  unfold npMean
  rw [hfold, NpVal.div_num_of_ne]
  · simp
  · have : 0 < l.length := List.length_pos.mpr hne
    exact_mod_cast Nat.pos_iff_ne_zero.mp this

theorem npMean_nil : npMean [] = nan := by
  simp [npMean, NpVal.div]

theorem malLabel_mask_zeroBuf (n : ℕ) :
    malLabel_mask n (fun _ _ => num 0) = [] := by
  unfold malLabel_mask
  apply List.filter_eq_nil_iff.mpr
  intro j _
  norm_num

theorem lossAllOf_zeroBuf (n : ℕ) (hn : 0 < n) :
    lossAllOf n (fun _ _ => num 0) = num 0 := by
  unfold lossAllOf rowList
  apply npMean_zeroList
  · simp
    omega
  · intro x hx
    simp at hx
    exact hx.2

theorem lossMalOf_zeroBuf (n : ℕ) :
    lossMalOf n (fun _ _ => num 0) = num 0 := by
  unfold lossMalOf
  rw [malLabel_mask_zeroBuf]
  simp [npMean_nil]

theorem correctMalOf_zeroBuf (n : ℕ) :
    correctMalOf n (fun _ _ => num 0) = nan := by
  unfold correctMalOf
  rw [rowSum_zeroBuf, rowSum_zeroBuf]
  simp only [NpVal.add_num, add_zero]
  rw [NpVal.div_num_zero_zero]
  simp

theorem correctAllOf_zeroBuf (n : ℕ) :
    correctAllOf n (fun _ _ => num 0) = nan := by
  unfold correctAllOf
  rw [rowSum_zeroBuf, rowSum_zeroBuf]
  simp only [NpVal.add_num, add_zero]
  rw [NpVal.div_num_zero_zero]
  simp

theorem precisionOf_zeroBuf (n : ℕ) :
    precisionOf n (fun _ _ => num 0) = num 0 := by
  unfold precisionOf
  rw [rowSum_zeroBuf, rowSum_zeroBuf]
  simp only [NpVal.add_num, add_zero]
  rw [NpVal.pyOr_of_zero, NpVal.div_num_of_ne 0 1 (by norm_num)]
  norm_num

theorem recallOf_zeroBuf (n : ℕ) :
    recallOf n (fun _ _ => num 0) = num 0 := by
  unfold recallOf
  rw [rowSum_zeroBuf, rowSum_zeroBuf]
  simp only [NpVal.add_num, add_zero]
  rw [NpVal.pyOr_of_zero, NpVal.div_num_of_ne 0 1 (by norm_num)]
  norm_num

theorem f1Of_zeroBuf (n : ℕ) :
    f1Of n (fun _ _ => num 0) = num 0 := by
  unfold f1Of
  rw [precisionOf_zeroBuf, recallOf_zeroBuf]
  simp only [NpVal.mul_num, NpVal.add_num, add_zero, mul_zero]
  rw [NpVal.pyOr_of_zero, NpVal.div_num_of_ne 0 1 (by norm_num)]
  norm_num

theorem scoreOf_zeroBuf (n : ℕ) (hn : 0 < n) :
    scoreOf n (fun _ _ => num 0) = num 1 := by
  unfold scoreOf
  rw [f1Of_zeroBuf, recallOf_zeroBuf, lossMalOf_zeroBuf, lossAllOf_zeroBuf n hn]
  simp only [NpVal.add_num, NpVal.mul_num, NpVal.sub_num]
  norm_num

/-- The reducer's full output on an all-zero buffer of `n > 0` samples:
the assert passes, both unguarded percent divisions are `0/0 = nan`, the
floored rates are 0, and the score is exactly 1. -/
theorem logMetrics_zeroBuf (n : ℕ) (hn : 0 < n) :
    logMetrics n (fun _ _ => num 0) =
      some (⟨num 0, num 0, nan, nan, num 0, num 0, num 0⟩, num 1) := by
  rw [logMetrics, if_pos (by simp)]
  rw [lossAllOf_zeroBuf n hn, lossMalOf_zeroBuf, correctMalOf_zeroBuf,
    correctAllOf_zeroBuf, precisionOf_zeroBuf, recallOf_zeroBuf,
    f1Of_zeroBuf, scoreOf_zeroBuf n hn]

/-! ## Claim C1: the composite score formula -/

/-- C1: whenever the reducer accepts a metrics buffer and returns a
score, that score is exactly `1 + f1 - 0.01*recall - 0.001*meanMalLoss -
0.0001*meanAllLoss` computed from the very values recorded in the
returned metrics record. -/
theorem claim_C1_score_formula (n : ℕ) (metrics_ary : ℕ → ℕ → NpVal)
    (d : MetricsDict) (s : NpVal)
    (h : logMetrics n metrics_ary = some (d, s)) :
    s = NpVal.sub (NpVal.sub (NpVal.sub (NpVal.add (num 1) d.f1)
          (NpVal.mul d.pr_recall (num (1 / 100))))
        (NpVal.mul d.lossMal (num (1 / 1000))))
      (NpVal.mul d.lossAll (num (1 / 10000))) := by
  rw [logMetrics] at h
  split at h
  · simp only [Option.some.injEq, Prod.mk.injEq] at h
    obtain ⟨hd, hs⟩ := h
    subst hd
    subst hs
    rfl
  · exact absurd h (by simp)

/-- Witness for C1 on an all-zero one-sample buffer. -/
theorem claim_C1_witness :
    (num 1 : NpVal) =
      NpVal.sub (NpVal.sub (NpVal.sub (NpVal.add (num 1) (num 0))
          (NpVal.mul (num 0) (num (1 / 100))))
        (NpVal.mul (num 0) (num (1 / 1000))))
      (NpVal.mul (num 0) (num (1 / 10000))) :=
  claim_C1_score_formula 1 (fun _ _ => num 0)
    ⟨num 0, num 0, nan, nan, num 0, num 0, num 0⟩ (num 1)
    (logMetrics_zeroBuf 1 (by norm_num))

/-! ## Claim C8: the division floor policy -/

/-- C8: when the summed ATP and AFP totals are both zero the reducer's
precision is exactly 0 (the zero denominator is floored to 1, so no NaN
arises); the same floor yields recall 0 when ATP+AFN is 0, and f1 0 when
precision+recall is 0. -/
theorem claim_C8_floor_policy (n : ℕ) (metrics_ary : ℕ → ℕ → NpVal)
    (d : MetricsDict) (s : NpVal)
    (h : logMetrics n metrics_ary = some (d, s)) :
    (rowSum n metrics_ary METRICS_ATP_NDX = num 0 →
      rowSum n metrics_ary METRICS_AFP_NDX = num 0 →
      d.precision = num 0) ∧
    (rowSum n metrics_ary METRICS_ATP_NDX = num 0 →
      rowSum n metrics_ary METRICS_AFN_NDX = num 0 →
      d.pr_recall = num 0) ∧
    (d.precision = num 0 → d.pr_recall = num 0 → d.f1 = num 0) := by
  rw [logMetrics] at h
  split at h
  · simp only [Option.some.injEq, Prod.mk.injEq] at h
    obtain ⟨hd, hs⟩ := h
    subst hd
    refine ⟨?_, ?_, ?_⟩
    · intro h1 h2
      show precisionOf n metrics_ary = num 0
      unfold precisionOf
      rw [h1, h2]
      simp only [NpVal.add_num, add_zero]
      rw [NpVal.pyOr_of_zero, NpVal.div_num_of_ne 0 1 (by norm_num)]
      norm_num
    · intro h1 h2
      show recallOf n metrics_ary = num 0
      unfold recallOf
      rw [h1, h2]
      simp only [NpVal.add_num, add_zero]
      rw [NpVal.pyOr_of_zero, NpVal.div_num_of_ne 0 1 (by norm_num)]
      norm_num
    · intro hp hr
      have hp2 : precisionOf n metrics_ary = num 0 := hp
      have hr2 : recallOf n metrics_ary = num 0 := hr
      show f1Of n metrics_ary = num 0
      unfold f1Of
      rw [hp2, hr2]
      simp only [NpVal.mul_num, NpVal.add_num, add_zero, mul_zero]
      rw [NpVal.pyOr_of_zero, NpVal.div_num_of_ne 0 1 (by norm_num)]
      norm_num
  · exact absurd h (by simp)

/-- Witness for C8: the all-zero buffer has `ATP = AFP = 0` summed
totals and its precision is 0. -/
theorem claim_C8_witness :
    (⟨num 0, num 0, nan, nan, num 0, num 0, num 0⟩ : MetricsDict).precision
      = num 0 :=
  (claim_C8_floor_policy 1 (fun _ _ => num 0)
      ⟨num 0, num 0, nan, nan, num 0, num 0, num 0⟩ (num 1)
      (logMetrics_zeroBuf 1 (by norm_num))).1
    (rowSum_zeroBuf 1 METRICS_ATP_NDX) (rowSum_zeroBuf 1 METRICS_AFP_NDX)

/-! ## Claim C9: the non-finite assertion -/

/-- C9: the reducer aborts with an assertion failure exactly when the
end-of-epoch metrics buffer contains at least one non-finite entry; on
an all-finite buffer it proceeds and returns a result. -/
theorem claim_C9_assert_nonfinite (n : ℕ) (metrics_ary : ℕ → ℕ → NpVal) :
    logMetrics n metrics_ary = none ↔
      ∃ r, r < METRICS_SIZE ∧ ∃ j, j < n ∧
        (metrics_ary r j).isFinite = false := by
  rw [logMetrics]
  by_cases hfin : (List.range METRICS_SIZE).all
      (fun r => (List.range n).all
        (fun j => (metrics_ary r j).isFinite)) = true
  · rw [if_pos hfin]
    simp only [List.all_eq_true, List.mem_range] at hfin
    constructor
    · intro h
      exact absurd h (by simp)
    · rintro ⟨r, hr, j, hj, hbad⟩
      rw [hfin r hr j hj] at hbad
      exact absurd hbad (by simp)
  · rw [if_neg hfin]
    simp only [List.all_eq_true, List.mem_range] at hfin
    push_neg at hfin
    simp only [Bool.not_eq_true] at hfin
    obtain ⟨r, hr, j, hj, hbad⟩ := hfin
    exact ⟨fun _ => ⟨r, hr, j, hj, hbad⟩, fun _ => rfl⟩

/-! ## Claim C4: accumulator write pattern of an epoch -/

/-- The rows `computeBatchLoss` actually stores into (in source order the
stores are: label, loss, ATP, AFN, AFP, MTP, MFN, malignant loss); the
malignant-FP store is commented out in the source. -/
def writtenRowP (r : ℕ) : Prop :=
  r = METRICS_LABEL_NDX ∨ r = METRICS_LOSS_NDX ∨ r = METRICS_ATP_NDX ∨
  r = METRICS_AFN_NDX ∨ r = METRICS_AFP_NDX ∨ r = METRICS_MTP_NDX ∨
  r = METRICS_MFN_NDX ∨ r = METRICS_MAL_LOSS_NDX

instance (r : ℕ) : Decidable (writtenRowP r) := by
  unfold writtenRowP
  infer_instance

/-- A well-formed batch of exactly `bs` samples. -/
def batchN (bs : ℕ) (b : SegBatch) : Prop :=
  b.label_list.length = bs ∧ b.label.length = bs ∧ b.ben.length = bs ∧
  b.mal.length = bs ∧ b.prediction.length = bs

@[simp] theorem intersectionSum_length (a b : List (List ℚ)) :
    (intersectionSum a b).length = min a.length b.length := by
  simp [intersectionSum]

@[simp] theorem oneMinus_length (t : List (List ℚ)) :
    (oneMinus t).length = t.length := by
  simp [oneMinus]

@[simp] theorem thresholdHalf_length (t : List (List ℚ)) :
    (thresholdHalf t).length = t.length := by
  simp [thresholdHalf]

@[simp] theorem hadamard_length (a b : List (List ℚ)) :
    (hadamard a b).length = min a.length b.length := by
  simp [hadamard]

theorem computeBatchLoss_wcount (batch_ndx bs : ℕ) (b : SegBatch)
    (m : MBuf) (hb : batchN bs b) (r c : ℕ) :
    ((computeBatchLoss batch_ndx bs b m).1).wcount r c =
      m.wcount r c +
        (if writtenRowP r ∧ batch_ndx * bs ≤ c ∧ c < batch_ndx * bs + bs
         then 1 else 0) := by
  obtain ⟨h1, h2, h3, h4, h5⟩ := hb
  simp only [computeBatchLoss, writeRow, diceLoss_length,
    intersectionSum_length, oneMinus_length, thresholdHalf_length,
    hadamard_length, h1, h2, h3, h4, h5, Nat.min_self, writtenRowP,
    METRICS_LABEL_NDX, METRICS_LOSS_NDX, METRICS_MAL_LOSS_NDX,
    METRICS_MTP_NDX, METRICS_MFN_NDX, METRICS_ATP_NDX, METRICS_AFN_NDX,
    METRICS_AFP_NDX]
  generalize batch_ndx * bs = s
  split_ifs <;> omega

theorem doEpochAux_wcount (bs : ℕ) (batches : List SegBatch)
    (hb : ∀ b ∈ batches, batchN bs b) :
    ∀ (ndx : ℕ) (m : MBuf) (r c : ℕ),
      (doEpochAux bs ndx m batches).wcount r c =
        m.wcount r c +
          (if writtenRowP r ∧ ndx * bs ≤ c ∧
              c < ndx * bs + batches.length * bs
           then 1 else 0) := by
  induction batches with
  | nil =>
    intro ndx m r c
    simp only [doEpochAux, List.length_nil, Nat.zero_mul, Nat.add_zero]
    generalize ndx * bs = s
    rw [if_neg (fun h => absurd h.2 (by omega))]
    simp
  | cons b rest ih =>
    intro ndx m r c
    have hstep : doEpochAux bs ndx m (b :: rest) =
        doEpochAux bs (ndx + 1) (computeBatchLoss ndx bs b m).1 rest := rfl
    rw [hstep, ih (fun x hx => hb x (by simp [hx])),
      computeBatchLoss_wcount ndx bs b m (hb b (by simp)) r c]
    have e1 : (ndx + 1) * bs = ndx * bs + bs := by ring
    have e2 : (b :: rest).length * bs = rest.length * bs + bs := by
      simp only [List.length_cons]
      ring
    rw [e1, e2]
    generalize ndx * bs = s
    generalize rest.length * bs = L
    by_cases hP : writtenRowP r
    · simp only [hP, true_and]
      split_ifs <;> omega
    · simp only [eq_false hP, false_and, if_false, add_zero]

/-- C4 as stated is false: for an epoch of one batch of one sample, the
malignant-FP row of the accumulator is written zero times, not exactly
once per sample column. -/
theorem claim_C4_cex :
    (doEpoch 1 [⟨[0], [[0]], [[0]], [[0]], [[0]]⟩]).wcount
      METRICS_MFP_NDX 0 ≠ 1 := by
  decide

/-- C4 (amended): by epoch end every metrics row that the batch step
stores — label, overall dice loss, malignant dice loss, malignant TP,
malignant FN, all-class TP, all-class FN, all-class FP — has been
written exactly once per sample column, each batch covering the column
range `[batchIndex*batchSize, batchIndex*batchSize + N)`; the
malignant-FP row (its store is commented out) and the unused slot are
never written. -/
theorem claim_C4_amended (bs : ℕ) (batches : List SegBatch)
    (hb : ∀ b ∈ batches, batchN bs b) (r c : ℕ)
    (hc : c < batches.length * bs) :
    ((r = METRICS_LABEL_NDX ∨ r = METRICS_LOSS_NDX ∨
        r = METRICS_MAL_LOSS_NDX ∨ r = METRICS_MTP_NDX ∨
        r = METRICS_MFN_NDX ∨ r = METRICS_ATP_NDX ∨
        r = METRICS_AFN_NDX ∨ r = METRICS_AFP_NDX) →
      (doEpoch bs batches).wcount r c = 1) ∧
    ((r = METRICS_MFP_NDX ∨ r = 3) →
      (doEpoch bs batches).wcount r c = 0) := by
  have hmain := doEpochAux_wcount bs batches hb 0 initMBuf r c
  rw [doEpoch]
  constructor
  · intro hr
    rw [hmain]
    have hw : writtenRowP r := by
      unfold writtenRowP
      tauto
    rw [if_pos ⟨hw, by simp, by simpa using hc⟩]
    simp [initMBuf]
  · intro hr
    rw [hmain]
    rw [if_neg (fun hcontra => ?_)]
    · simp [initMBuf]
    · have hw := hcontra.1
      unfold writtenRowP at hw
      rcases hr with rfl | rfl <;>
        simp [METRICS_LABEL_NDX, METRICS_LOSS_NDX, METRICS_MAL_LOSS_NDX,
          METRICS_MTP_NDX, METRICS_MFN_NDX, METRICS_MFP_NDX,
          METRICS_ATP_NDX, METRICS_AFN_NDX, METRICS_AFP_NDX] at hw

/-- Witness for C4 (amended): the overall-loss row of a one-batch,
one-sample epoch is written exactly once at column 0. -/
theorem claim_C4_witness :
    (doEpoch 1 [⟨[0], [[0]], [[0]], [[0]], [[0]]⟩]).wcount
      METRICS_LOSS_NDX 0 = 1 :=
  (claim_C4_amended 1 [⟨[0], [[0]], [[0]], [[0]], [[0]]⟩]
      (by intro b hbm; simp at hbm; subst hbm
          exact ⟨rfl, rfl, rfl, rfl, rfl⟩)
      METRICS_LOSS_NDX 0 (by simp)).1
    (Or.inr (Or.inl rfl))

/-! ## Claim C3: scenario A (all labels 0, all-zero prediction) -/

theorem getD_zero_of_all (xs : List ℚ) (i : ℕ) (h : ∀ x ∈ xs, x = 0) :
    xs.getD i 0 = 0 := by
  induction xs generalizing i with
  | nil => simp
  | cons a l ih =>
    cases i with
    | zero => simpa using h a (by simp)
    | succ k => simpa using ih k (fun x hx => h x (by simp [hx]))

/-- Scenario A of the spec: a batch of `N = 4` samples, all labels 0,
benign and malignant masks empty, and an all-zero model prediction. -/
def batchA : SegBatch :=
  ⟨[0, 0, 0, 0], [[0], [0], [0], [0]], [[0], [0], [0], [0]],
    [[0], [0], [0], [0]], [[0], [0], [0], [0]]⟩

theorem scenarioA_val : ∀ r c, (doEpoch 4 [batchA]).val r c = num 0 := by
  have hthr : thresholdHalf batchA.prediction = [[0], [0], [0], [0]] := by
    norm_num [batchA, thresholdHalf]
  have honeb : oneMinus batchA.ben = [[1], [1], [1], [1]] := by
    norm_num [batchA, oneMinus]
  have honel : oneMinus batchA.label = [[1], [1], [1], [1]] := by
    norm_num [batchA, oneMinus]
  have honethr : oneMinus (thresholdHalf batchA.prediction) =
      [[1], [1], [1], [1]] := by
    rw [hthr]
    norm_num [oneMinus]
  have hmalpred : hadamard (thresholdHalf batchA.prediction)
      (oneMinus batchA.ben) = [[0], [0], [0], [0]] := by
    rw [hthr, honeb]
    norm_num [hadamard]
  have honemp : oneMinus (hadamard (thresholdHalf batchA.prediction)
      (oneMinus batchA.ben)) = [[1], [1], [1], [1]] := by
    rw [hmalpred]
    norm_num [oneMinus]
  have hdice : diceLoss batchA.label batchA.prediction 1024 =
      [0, 0, 0, 0] := by
    norm_num [batchA, diceLoss, sum_dim1, hadamard]
  have hls : diceLoss batchA.mal (hadamard (thresholdHalf batchA.prediction)
      (oneMinus batchA.ben)) 1024 = [0, 0, 0, 0] := by
    rw [hmalpred]
    norm_num [batchA, diceLoss, sum_dim1, hadamard]
  have htp : intersectionSum batchA.label (thresholdHalf batchA.prediction) =
      [0, 0, 0, 0] := by
    rw [hthr]
    norm_num [batchA, intersectionSum]
  have hfn : intersectionSum batchA.label
      (oneMinus (thresholdHalf batchA.prediction)) = [0, 0, 0, 0] := by
    rw [honethr]
    norm_num [batchA, intersectionSum]
  have hfp : intersectionSum (oneMinus batchA.label)
      (thresholdHalf batchA.prediction) = [0, 0, 0, 0] := by
    rw [honel, hthr]
    norm_num [intersectionSum]
  have htp2 : intersectionSum batchA.mal
      (hadamard (thresholdHalf batchA.prediction) (oneMinus batchA.ben)) =
      [0, 0, 0, 0] := by
    rw [hmalpred]
    norm_num [batchA, intersectionSum]
  have hfn2 : intersectionSum batchA.mal
      (oneMinus (hadamard (thresholdHalf batchA.prediction)
        (oneMinus batchA.ben))) = [0, 0, 0, 0] := by
    rw [honemp]
    norm_num [batchA, intersectionSum]
  have hll : batchA.label_list = [0, 0, 0, 0] := rfl
  intro r c
  show ((computeBatchLoss 0 4 batchA initMBuf).1).val r c = num 0
  simp only [computeBatchLoss, writeRow, initMBuf]
  rw [hdice, htp, hfn, hfp, htp2, hfn2, hls, hll]
  split_ifs <;>
    first
      | rfl
      | exact congrArg num (getD_zero_of_all _ _ (by intro x hx; simp at hx; exact hx))

/-- The reducer's output on the scenario-A epoch accumulator. -/
theorem scenarioA_logMetrics :
    logMetrics 4 (doEpoch 4 [batchA]).val =
      some (⟨num 0, num 0, nan, nan, num 0, num 0, num 0⟩, num 1) := by
  have h : (doEpoch 4 [batchA]).val = fun _ _ => num 0 :=
    funext (fun r => funext (fun c => scenarioA_val r c))
  rw [h]
  exact logMetrics_zeroBuf 4 (by norm_num)

/-- C3 as stated is false: in scenario A the reducer's `correct/all` is
NaN — the `0/0` there is an unguarded division, not floored to 0.  (The
floored quantities and the score are as the full output shows.) -/
theorem claim_C3_cex :
    logMetrics 4 (doEpoch 4 [batchA]).val =
      some (⟨num 0, num 0, nan, nan, num 0, num 0, num 0⟩, num 1) ∧
    (nan : NpVal) ≠ num 0 :=
  ⟨scenarioA_logMetrics, by simp⟩

/-- C3 (amended): in the scenario-A epoch the reducer does not abort;
`correct/all` (and `correct/mal`) are NaN from the unguarded `0/0`,
precision and recall are floored to 0, F1 is 0, both mean losses are
exactly 0 (the malignant one by the NaN-to-zero substitution on an empty
mask, the overall one because the all-zero prediction has zero dice loss
at ε = 1024), and the score is exactly 1 — not strictly below 1. -/
theorem claim_C3_amended :
    ∃ d, logMetrics 4 (doEpoch 4 [batchA]).val = some (d, num 1) ∧
      d.correctAll = nan ∧ d.correctMal = nan ∧ d.precision = num 0 ∧
      d.pr_recall = num 0 ∧ d.f1 = num 0 ∧ d.lossAll = num 0 ∧
      d.lossMal = num 0 :=
  ⟨⟨num 0, num 0, nan, nan, num 0, num 0, num 0⟩, scenarioA_logMetrics,
    rfl, rfl, rfl, rfl, rfl, rfl, rfl⟩

/-! ## Claim C10: score lower bound and first-epoch promotion -/

theorem foldr_add_num_list (l : List ℚ) :
    ((l.map num).foldr NpVal.add (num 0)) = num l.sum := by
  induction l with
  | nil => rfl
  | cons x xs ih =>
    simp only [List.map_cons, List.foldr_cons, List.sum_cons, ih,
      NpVal.add_num]

theorem rowSum_num (n : ℕ) (f : ℕ → ℕ → ℚ) (r : ℕ) :
    rowSum n (fun i j => num (f i j)) r =
      num (((List.range n).map (f r)).sum) := by
  unfold rowSum
  have h : (List.range n).map (fun j => num (f r j)) =
      ((List.range n).map (f r)).map num := by
    rw [List.map_map]
    rfl
  rw [h, foldr_add_num_list]

theorem npMean_num (l : List ℚ) (hne : l ≠ []) :
    npMean (l.map num) = num (l.sum / l.length) := by
  unfold npMean
  rw [foldr_add_num_list, List.length_map, NpVal.div_num_of_ne]
  exact_mod_cast Nat.pos_iff_ne_zero.mp (List.length_pos.mpr hne)

theorem mean_unit_bounds (l : List ℚ) (hne : l ≠ [])
    (h : ∀ x ∈ l, 0 ≤ x ∧ x ≤ 1) :
    0 ≤ l.sum / l.length ∧ l.sum / l.length ≤ 1 := by
  have hpos : (0:ℚ) < l.length := by
    exact_mod_cast List.length_pos.mpr hne
  constructor
  · exact div_nonneg (List.sum_nonneg (fun x hx => (h x hx).1)) hpos.le
  · rw [div_le_one hpos]
    have := List.sum_le_card_nsmul l 1 (fun x hx => (h x hx).2)
    simpa using this

theorem lossAllOf_num (n : ℕ) (f : ℕ → ℕ → ℚ) (hn : 0 < n)
    (hb : ∀ j < n, 0 ≤ f METRICS_LOSS_NDX j ∧ f METRICS_LOSS_NDX j ≤ 1) :
    ∃ a, lossAllOf n (fun i j => num (f i j)) = num a ∧ 0 ≤ a ∧ a ≤ 1 := by
  unfold lossAllOf rowList
  have hmap : (List.range n).map (fun j => num (f METRICS_LOSS_NDX j)) =
      ((List.range n).map (f METRICS_LOSS_NDX)).map num := by
    rw [List.map_map]
    rfl
  have hne : (List.range n).map (f METRICS_LOSS_NDX) ≠ [] := by
    simp
    omega
  rw [hmap, npMean_num _ hne]
  refine ⟨_, rfl, mean_unit_bounds _ hne ?_⟩
  intro x hx
  simp only [List.mem_map, List.mem_range] at hx
  obtain ⟨j, hj, rfl⟩ := hx
  exact hb j hj

theorem lossMalOf_num (n : ℕ) (f : ℕ → ℕ → ℚ)
    (hb : ∀ j < n, 0 ≤ f METRICS_MAL_LOSS_NDX j ∧
      f METRICS_MAL_LOSS_NDX j ≤ 1) :
    ∃ a, lossMalOf n (fun i j => num (f i j)) = num a ∧ 0 ≤ a ∧ a ≤ 1 := by
  unfold lossMalOf
  have hsub : ∀ j ∈ malLabel_mask n (fun i j => num (f i j)), j < n := by
    intro j hj
    unfold malLabel_mask at hj
    rw [List.mem_filter] at hj
    simpa using hj.1
  rcases eq_or_ne (malLabel_mask n (fun i j => num (f i j))) [] with hnil | hne
  · rw [hnil]
    exact ⟨0, by simp [npMean_nil], le_refl 0, by norm_num⟩
  · have hmap : (malLabel_mask n (fun i j => num (f i j))).map
        (fun j => num (f METRICS_MAL_LOSS_NDX j)) =
        ((malLabel_mask n (fun i j => num (f i j))).map
          (f METRICS_MAL_LOSS_NDX)).map num := by
      rw [List.map_map]
      rfl
    have hne2 : (malLabel_mask n (fun i j => num (f i j))).map
        (f METRICS_MAL_LOSS_NDX) ≠ [] := by
      simpa using hne
    rw [hmap, npMean_num _ hne2]
    simp only [NpVal.nanToNum_num]
    refine ⟨_, rfl, mean_unit_bounds _ hne2 ?_⟩
    intro x hx
    simp only [List.mem_map] at hx
    obtain ⟨j, hj, rfl⟩ := hx
    exact hb j (hsub j hj)

theorem floor_div_unit (A B : ℚ) (hA : 0 ≤ A) (hB : 0 ≤ B) :
    ∃ p, NpVal.div (num A) (NpVal.pyOr (num (A + B)) (num 1)) = num p ∧
      0 ≤ p ∧ p ≤ 1 := by
  by_cases h : A + B = 0
  · refine ⟨0, ?_, le_refl 0, by norm_num⟩
    have hA0 : A = 0 := by linarith
    rw [h, NpVal.pyOr_of_zero, NpVal.div_num_of_ne A 1 (by norm_num), hA0]
    norm_num
  · have hpos : 0 < A + B := lt_of_le_of_ne (by linarith) (Ne.symm h)
    rw [NpVal.pyOr_of_ne _ h, NpVal.div_num_of_ne _ _ h]
    exact ⟨A / (A + B), rfl, div_nonneg hA hpos.le,
      by rw [div_le_one hpos]; linarith⟩

theorem f1_div_nonneg (p r : ℚ) (hp : 0 ≤ p) (hr : 0 ≤ r) :
    ∃ q, NpVal.div (NpVal.mul (num 2) (NpVal.mul (num p) (num r)))
      (NpVal.pyOr (NpVal.add (num p) (num r)) (num 1)) = num q ∧
      0 ≤ q := by
  simp only [NpVal.mul_num, NpVal.add_num]
  by_cases h : p + r = 0
  · have hp0 : p = 0 := by linarith
    rw [h, NpVal.pyOr_of_zero, NpVal.div_num_of_ne _ 1 (by norm_num)]
    exact ⟨_, rfl, by rw [hp0]; norm_num⟩
  · have hpos : 0 < p + r := lt_of_le_of_ne (by linarith) (Ne.symm h)
    rw [NpVal.pyOr_of_ne _ h, NpVal.div_num_of_ne _ _ h]
    exact ⟨_, rfl, div_nonneg (by positivity) hpos.le⟩

/-- C10: on any finite metrics buffer with loss rows in `[0,1]` and
non-negative count rows (and at least one sample), the reducer returns a
finite score of at least `1 - 0.01 - 0.001 - 0.0001`, hence at least 0;
so with the best score initialised at `0.0` the first evaluation epoch
always counts as best and the best-checkpoint file is written. -/
theorem claim_C10_score_lower_bound (n : ℕ) (f : ℕ → ℕ → ℚ) (hn : 0 < n)
    (hloss : ∀ j < n, 0 ≤ f METRICS_LOSS_NDX j ∧ f METRICS_LOSS_NDX j ≤ 1)
    (hmloss : ∀ j < n, 0 ≤ f METRICS_MAL_LOSS_NDX j ∧
      f METRICS_MAL_LOSS_NDX j ≤ 1)
    (hcnt : ∀ r, (r = METRICS_MTP_NDX ∨ r = METRICS_MFN_NDX ∨
        r = METRICS_MFP_NDX ∨ r = METRICS_ATP_NDX ∨ r = METRICS_AFN_NDX ∨
        r = METRICS_AFP_NDX) → ∀ j < n, 0 ≤ f r j) :
    ∃ d q, logMetrics n (fun i j => num (f i j)) = some (d, num q) ∧
      1 - 1/100 - 1/1000 - 1/10000 ≤ q ∧ 0 ≤ q ∧
      (mainLoop [q]).bestFile = some 1 := by
  have hfin : (List.range METRICS_SIZE).all
      (fun r => (List.range n).all
        (fun j => ((fun i j => num (f i j)) r j).isFinite)) = true := by
    simp
  obtain ⟨aq, haq, haq0, haq1⟩ := lossAllOf_num n f hn hloss
  obtain ⟨mq, hmq, hmq0, hmq1⟩ := lossMalOf_num n f hmloss
  have hsumpos : ∀ r, (∀ j < n, 0 ≤ f r j) →
      0 ≤ ((List.range n).map (f r)).sum := by
    intro r hr
    apply List.sum_nonneg
    intro x hx
    simp only [List.mem_map, List.mem_range] at hx
    obtain ⟨j, hj, rfl⟩ := hx
    exact hr j hj
  have hA : 0 ≤ ((List.range n).map (f METRICS_ATP_NDX)).sum :=
    hsumpos _ (hcnt _ (by tauto))
  have hB : 0 ≤ ((List.range n).map (f METRICS_AFN_NDX)).sum :=
    hsumpos _ (hcnt _ (by tauto))
  have hC : 0 ≤ ((List.range n).map (f METRICS_AFP_NDX)).sum :=
    hsumpos _ (hcnt _ (by tauto))
  obtain ⟨pq, hpq, hpq0, hpq1⟩ := floor_div_unit _ _ hA hC
  obtain ⟨rq, hrq, hrq0, hrq1⟩ := floor_div_unit _ _ hA hB
  have hprecOf : precisionOf n (fun i j => num (f i j)) = num pq := by
    unfold precisionOf
    rw [rowSum_num, rowSum_num]
    simpa using hpq
  have hrecOf : recallOf n (fun i j => num (f i j)) = num rq := by
    unfold recallOf
    rw [rowSum_num, rowSum_num]
    simpa using hrq
  obtain ⟨fq, hfq, hfq0⟩ := f1_div_nonneg pq rq hpq0 hrq0
  have hf1Of : f1Of n (fun i j => num (f i j)) = num fq := by
    unfold f1Of
    rw [hprecOf, hrecOf]
    exact hfq
  have hscore : scoreOf n (fun i j => num (f i j)) =
      num (1 + fq - rq * (1/100) - mq * (1/1000) - aq * (1/10000)) := by
    unfold scoreOf
    rw [hf1Of, hrecOf, hmq, haq]
    simp only [NpVal.add_num, NpVal.mul_num, NpVal.sub_num]
  refine ⟨⟨num aq, num mq, correctMalOf n (fun i j => num (f i j)),
      correctAllOf n (fun i j => num (f i j)), num pq, num rq, num fq⟩,
    1 + fq - rq * (1/100) - mq * (1/1000) - aq * (1/10000),
    ?_, ?_, ?_, ?_⟩
  · rw [logMetrics, if_pos hfin, haq, hmq, hprecOf, hrecOf, hf1Of, hscore]
  · linarith
  · linarith
  · have hq0 : (0:ℚ) ≤ 1 + fq - rq * (1/100) - mq * (1/1000) -
        aq * (1/10000) := by
      linarith
    simp [mainLoop, mainLoopAux, mainStep, saveModel, max_eq_left hq0]
    linarith

/-- Witness for C10 on an all-zero two-sample buffer: the first epoch's
score (exactly 1 there) triggers the best-checkpoint write. -/
theorem claim_C10_witness : (mainLoop [(1:ℚ)]).bestFile = some 1 := by
  obtain ⟨d, q, heq, hge, h0, hbest⟩ :=
    claim_C10_score_lower_bound 2 (fun _ _ => 0) (by norm_num)
      (by intro j hj; norm_num) (by intro j hj; norm_num)
      (by intro r hr j hj; norm_num)
  have h2 : some (d, num q) =
      some ((⟨num 0, num 0, nan, nan, num 0, num 0, num 0⟩ : MetricsDict),
        num 1) :=
    heq.symm.trans (logMetrics_zeroBuf 2 (by norm_num))
  simp only [Option.some.injEq, Prod.mk.injEq, NpVal.num.injEq] at h2
  rw [← h2.2]
  exact hbest

end TrainSeg
